import Mathlib

/-!
Verification of the `wincenzo/lottery` core (src/lottery.py, src/utils.py)
via a shallow embedding.  Python machine integers are modelled as `ℤ` where
sign matters (session parameters, validation) and as `ℕ` where they are
structural counters (requested sizes, fuel for loops whose termination is
probabilistic).  Randomness primitives are modelled possibilistically by an
oracle stream `o : ℕ → ℕ`: `rnd.randint(1, m)` / `rnd.randrange(1, m+1)`
become `1 + o k % m`, whose set of reachable values is exactly `[1, m]`,
matching the support of the Python primitive.  Fallible code returns
`Option` (`none` = a raised exception); loops whose source text can run
forever take fuel and return `none` on exhaustion.
-/

/-- `utils.validate_draw_params`: the decorator's wrapper binds its two
positional arguments as `(size, max_num)` — in that order — and checks
`0 < size <= max_num`.  This is the check exactly as written, as a function
of the wrapper's own binder names. -/
def validate_check (size max_num : ℤ) : Bool :=
  decide (0 < size ∧ size ≤ max_num)

/-- The validation actually applied to `Lottery.drawer`: `drawer` has
signature `(self, max_num, size)` and every call site passes
`(max_num, size)` positionally, so the wrapper's first binder (`size`)
receives the caller's `max_num` and its second binder (`max_num`) receives
the caller's `size`. -/
def drawer_validation (max_num size : ℤ) : Bool :=
  validate_check max_num size

/-- `self._numbers` for a pool bound `m`: `list(range(1, m+1))` as integers. -/
def izRange (m : ℕ) : List ℤ :=
  (List.range m).map (fun i : ℕ => ((i + 1 : ℕ) : ℤ))

/-- Embedding of `rnd.randint(1, m)` (equivalently `rnd.randrange(1, m+1)`)
driven by one oracle value `r`: the reachable results are exactly `1..m`
when `0 < m`. -/
def rnd_between (m r : ℕ) : ℤ :=
  ((1 + r % m : ℕ) : ℤ)

/-- `Lottery.randrange`: starting from the user numbers, repeatedly draw
`rnd.randrange(1, max_num+1)`, insert into the accumulating set, and stop
as soon as the set's size reaches `size + len(user_nums)` (the check runs
after each insertion, exactly as in the `for ... break` of the source).
`none` models non-termination within the given fuel. -/
def randrange_loop (o : ℕ → ℕ) (U : Finset ℤ) (max_num size : ℕ) :
    ℕ → ℕ → Finset ℤ → Option (Finset ℤ)
  | 0, _, _ => none
  | fuel + 1, k, acc =>
    let acc2 := insert (rnd_between max_num (o k)) acc
    if acc2.card = size + U.card then some acc2
    else randrange_loop o U max_num size fuel (k + 1) acc2

/-- `Lottery.randrange` entry point: the accumulator starts as the set of
user numbers. -/
def randrange_draw (o : ℕ → ℕ) (U : Finset ℤ) (max_num size fuel : ℕ) :
    Option (Finset ℤ) :=
  randrange_loop o U max_num size fuel 0 U

/-- `Lottery.randint`: `while len(extraction) < size + len(user_nums)`,
draw `rnd.randint(1, max_num)` and insert (the check runs before each
insertion). -/
def randint_loop (o : ℕ → ℕ) (U : Finset ℤ) (max_num size : ℕ) :
    ℕ → ℕ → Finset ℤ → Option (Finset ℤ)
  | 0, _, acc =>
    if acc.card < size + U.card then none else some acc
  | fuel + 1, k, acc =>
    if acc.card < size + U.card then
      randint_loop o U max_num size fuel (k + 1)
        (insert (rnd_between max_num (o k)) acc)
    else some acc

/-- `Lottery.randint` entry point. -/
def randint_draw (o : ℕ → ℕ) (U : Finset ℤ) (max_num size fuel : ℕ) :
    Option (Finset ℤ) :=
  randint_loop o U max_num size fuel 0 U

/-- `Lottery.choice`: pop a uniformly chosen index from the current pool,
`size` times.  `rnd.choice(range(n))` is embedded as `o k % n`; popping an
index from an empty pool (the `IndexError` of `range(0)`) is `none`. -/
def choice_loop (o : ℕ → ℕ) : ℕ → ℕ → List ℤ → Option (List ℤ)
  | 0, _, _ => some []
  | size + 1, k, pool =>
    if pool.length = 0 then none
    else
      let i := o k % pool.length
      match choice_loop o size (k + 1) (pool.eraseIdx i) with
      | none => none
      | some rest => some (pool.getD i 0 :: rest)

/-- `Lottery.choice` entry point on a pool slice `self._numbers[:max_num]`. -/
def choice_draw (o : ℕ → ℕ) (pool : List ℤ) (size : ℕ) : Option (List ℤ) :=
  choice_loop o size 0 pool

/-- `Lottery.sample`: `rnd.sample(range(len(pool)), k=size)` yields a list
of distinct valid indices (the primitive's contract, supplied here as the
oracle `idxs`); `itemgetter(*idxs)` maps them over the pool. -/
def sample_draw (idxs : List ℕ) (pool : List ℤ) : List ℤ :=
  idxs.map (fun i => pool.getD i 0)

/-- `Lottery.shuffle`: `rnd.shuffle` produces a permutation `perm` of the
pool (the primitive's contract), `start = rnd.randint(0, len-size)` is
embedded as `r % (len - size + 1)`, and the window
`perm[start : start+size]` is returned. -/
def shuffle_draw (perm : List ℤ) (r size : ℕ) : List ℤ :=
  (perm.drop (r % (perm.length - size + 1))).take size

/-- The backend contract of the spec, for set-valued backends: exactly
`size` members, all in `[1, max_num]`, and the full range when
`size = max_num`. -/
def drawOk (max_num size : ℕ) (s : Finset ℤ) : Prop :=
  s.card = size ∧ (∀ x ∈ s, 1 ≤ x ∧ x ≤ (max_num : ℤ)) ∧
    (size = max_num → ∀ x : ℤ, 1 ≤ x → x ≤ (max_num : ℤ) → x ∈ s)

/-- The backend contract for list-valued backends: `size` pairwise distinct
members of `[1, max_num]`, the full range when `size = max_num`. -/
def listDrawOk (max_num size : ℕ) (l : List ℤ) : Prop :=
  l.length = size ∧ l.Nodup ∧ (∀ x ∈ l, 1 ≤ x ∧ x ≤ (max_num : ℤ)) ∧
    (size = max_num → ∀ x : ℤ, 1 ≤ x → x ≤ (max_num : ℤ) → x ∈ l)

lemma izRange_mem {m : ℕ} {x : ℤ} : x ∈ izRange m ↔ 1 ≤ x ∧ x ≤ (m : ℤ) := by
  unfold izRange
  rw [List.mem_map]
  constructor
  · rintro ⟨i, hi, rfl⟩
    rw [List.mem_range] at hi
    omega
  · rintro ⟨h1, h2⟩
    refine ⟨(x - 1).toNat, ?_, ?_⟩
    · rw [List.mem_range]; omega
    · omega

lemma izRange_length (m : ℕ) : (izRange m).length = m := by
  unfold izRange
  rw [List.length_map, List.length_range]

lemma izRange_nodup (m : ℕ) : (izRange m).Nodup := by
  unfold izRange
  refine List.Nodup.map ?_ (List.nodup_range m)
  intro a b h
  dsimp only at h
  omega

lemma rnd_between_bounds {m : ℕ} (h : 0 < m) (r : ℕ) :
    1 ≤ rnd_between m r ∧ rnd_between m r ≤ (m : ℤ) := by
  have := Nat.mod_lt r h
  unfold rnd_between
  omega

lemma full_range_of_card {m : ℕ} {s : Finset ℤ}
    (hsub : ∀ x ∈ s, 1 ≤ x ∧ x ≤ (m : ℤ)) (hc : s.card = m) :
    ∀ x : ℤ, 1 ≤ x → x ≤ (m : ℤ) → x ∈ s := by
  have hsub' : s ⊆ Finset.Icc (1 : ℤ) (m : ℤ) := by
    intro x hx
    rcases hsub x hx with ⟨h1, h2⟩
    exact Finset.mem_Icc.mpr ⟨h1, h2⟩
  have hcard : (Finset.Icc (1 : ℤ) (m : ℤ)).card = m := by
    rw [Int.card_Icc]; omega
  have : s = Finset.Icc (1 : ℤ) (m : ℤ) :=
    Finset.eq_of_subset_of_card_le hsub' (by omega)
  intro x h1 h2
  rw [this]
  exact Finset.mem_Icc.mpr ⟨h1, h2⟩

lemma drawOk_of {max_num size : ℕ} {s : Finset ℤ} (hc : s.card = size)
    (hmem : ∀ x ∈ s, 1 ≤ x ∧ x ≤ (max_num : ℤ)) : drawOk max_num size s := by
  refine ⟨hc, hmem, ?_⟩
  intro hsz
  exact full_range_of_card hmem (by omega)

lemma listDrawOk_of {max_num size : ℕ} {l : List ℤ} (hlen : l.length = size)
    (hnd : l.Nodup) (hmem : ∀ x ∈ l, x ∈ izRange max_num) :
    listDrawOk max_num size l := by
  have hb : ∀ x ∈ l, 1 ≤ x ∧ x ≤ (max_num : ℤ) := by
    intro x hx; exact izRange_mem.mp (hmem x hx)
  refine ⟨hlen, hnd, hb, ?_⟩
  intro hsz x h1 h2
  have hbf : ∀ x ∈ l.toFinset, 1 ≤ x ∧ x ≤ (max_num : ℤ) := by
    intro x hx; exact hb x (List.mem_toFinset.mp hx)
  have hcf : l.toFinset.card = max_num := by
    rw [List.toFinset_card_of_nodup hnd, hlen, hsz]
  have := full_range_of_card hbf hcf x h1 h2
  exact List.mem_toFinset.mp this

lemma randrange_loop_spec (o : ℕ → ℕ) (U : Finset ℤ) (max_num size : ℕ)
    (hm : 0 < max_num) :
    ∀ (fuel k : ℕ) (acc : Finset ℤ),
      (∀ x ∈ acc, x ∈ U ∨ (1 ≤ x ∧ x ≤ (max_num : ℤ))) →
      ∀ s, randrange_loop o U max_num size fuel k acc = some s →
        s.card = size + U.card ∧
          ∀ x ∈ s, x ∈ U ∨ (1 ≤ x ∧ x ≤ (max_num : ℤ)) := by
  intro fuel
  induction fuel with
  | zero =>
    intro k acc hacc s hs
    simp [randrange_loop] at hs
  | succ n ih =>
    intro k acc hacc s hs
    simp only [randrange_loop] at hs
    have hinv : ∀ x ∈ insert (rnd_between max_num (o k)) acc,
        x ∈ U ∨ (1 ≤ x ∧ x ≤ (max_num : ℤ)) := by
      intro x hx
      rcases Finset.mem_insert.mp hx with h | h
      · right; rw [h]; exact rnd_between_bounds hm (o k)
      · exact hacc x h
    by_cases hc : (insert (rnd_between max_num (o k)) acc).card = size + U.card
    · rw [if_pos hc] at hs
      cases hs
      exact ⟨hc, hinv⟩
    · rw [if_neg hc] at hs
      exact ih (k + 1) _ hinv s hs

lemma randint_loop_spec (o : ℕ → ℕ) (U : Finset ℤ) (max_num size : ℕ)
    (hm : 0 < max_num) :
    ∀ (fuel k : ℕ) (acc : Finset ℤ),
      acc.card ≤ size + U.card →
      (∀ x ∈ acc, x ∈ U ∨ (1 ≤ x ∧ x ≤ (max_num : ℤ))) →
      ∀ s, randint_loop o U max_num size fuel k acc = some s →
        s.card = size + U.card ∧
          ∀ x ∈ s, x ∈ U ∨ (1 ≤ x ∧ x ≤ (max_num : ℤ)) := by
  intro fuel
  induction fuel with
  | zero =>
    intro k acc hle hacc s hs
    simp only [randint_loop] at hs
    by_cases hc : acc.card < size + U.card
    · rw [if_pos hc] at hs; cases hs
    · rw [if_neg hc] at hs
      cases hs
      exact ⟨by omega, hacc⟩
  | succ n ih =>
    intro k acc hle hacc s hs
    simp only [randint_loop] at hs
    by_cases hc : acc.card < size + U.card
    · rw [if_pos hc] at hs
      have hinv : ∀ x ∈ insert (rnd_between max_num (o k)) acc,
          x ∈ U ∨ (1 ≤ x ∧ x ≤ (max_num : ℤ)) := by
        intro x hx
        rcases Finset.mem_insert.mp hx with h | h
        · right; rw [h]; exact rnd_between_bounds hm (o k)
        · exact hacc x h
      have hle' : (insert (rnd_between max_num (o k)) acc).card ≤ size + U.card := by
        have := Finset.card_insert_le (rnd_between max_num (o k)) acc
        omega
      exact ih (k + 1) _ hle' hinv s hs
    · rw [if_neg hc] at hs
      cases hs
      exact ⟨by omega, hacc⟩

lemma getD_mem_of_lt {α : Type*} :
    ∀ (l : List α) (i : ℕ) (d : α), i < l.length → l.getD i d ∈ l
  | [], _, _, h => absurd h (by simp)
  | a :: t, 0, _, _ => List.mem_cons_self a t
  | a :: t, i + 1, d, h =>
    List.mem_cons_of_mem a (getD_mem_of_lt t i d (by simpa using h))

lemma cons_eraseIdx_perm {α : Type*} :
    ∀ (l : List α) (i : ℕ) (d : α), i < l.length →
      (l.getD i d :: l.eraseIdx i).Perm l
  | a :: t, 0, d, _ => List.Perm.refl (a :: t)
  | a :: t, i + 1, d, h => by
    have hp := cons_eraseIdx_perm t i d (by simpa using h)
    have hswap : (t.getD i d :: a :: t.eraseIdx i).Perm
        (a :: t.getD i d :: t.eraseIdx i) := List.Perm.swap a (t.getD i d) _
    exact hswap.trans (hp.cons a)

lemma choice_loop_spec (o : ℕ → ℕ) :
    ∀ (size k : ℕ) (pool : List ℤ), pool.Nodup →
      ∀ l, choice_loop o size k pool = some l →
        l.length = size ∧ l.Nodup ∧ ∀ x ∈ l, x ∈ pool := by
  intro size
  induction size with
  | zero =>
    intro k pool hnd l hl
    simp only [choice_loop, Option.some.injEq] at hl
    subst hl
    simp
  | succ n ih =>
    intro k pool hnd l hl
    simp only [choice_loop] at hl
    by_cases hlen : pool.length = 0
    · rw [if_pos hlen] at hl; cases hl
    · rw [if_neg hlen] at hl
      have hilt : o k % pool.length < pool.length :=
        Nat.mod_lt _ (Nat.pos_of_ne_zero hlen)
      cases hrec : choice_loop o n (k + 1) (pool.eraseIdx (o k % pool.length)) with
      | none => rw [hrec] at hl; cases hl
      | some rest =>
        rw [hrec] at hl
        cases hl
        have hperm := cons_eraseIdx_perm pool (o k % pool.length) 0 hilt
        have hnd' : (pool.getD (o k % pool.length) 0 ::
            pool.eraseIdx (o k % pool.length)).Nodup := hperm.nodup_iff.mpr hnd
        obtain ⟨hnotmem, hnde⟩ := List.nodup_cons.mp hnd'
        obtain ⟨hlr, hndr, hmemr⟩ := ih (k + 1) _ hnde rest hrec
        refine ⟨by simp [hlr], ?_, ?_⟩
        · exact List.nodup_cons.mpr ⟨fun hmem => hnotmem (hmemr _ hmem), hndr⟩
        · intro x hx
          rcases List.mem_cons.mp hx with h | h
          · rw [h]; exact getD_mem_of_lt pool _ 0 hilt
          · exact hperm.subset (List.mem_cons_of_mem _ (hmemr x h))

lemma sample_draw_spec {idxs : List ℕ} {pool : List ℤ} (hpool : pool.Nodup)
    (hn : idxs.Nodup) (hlt : ∀ i ∈ idxs, i < pool.length) :
    (sample_draw idxs pool).length = idxs.length ∧
      (sample_draw idxs pool).Nodup ∧ ∀ x ∈ sample_draw idxs pool, x ∈ pool := by
  refine ⟨List.length_map _ _, ?_, ?_⟩
  · refine List.Nodup.map_on ?_ hn
    intro a ha b hb hab
    have hal := hlt a ha
    have hbl := hlt b hb
    have hget : pool.get ⟨a, hal⟩ = pool.get ⟨b, hbl⟩ := by
      rwa [List.getD_eq_getElem pool 0 hal, List.getD_eq_getElem pool 0 hbl] at hab
    have hfin := (List.Nodup.get_inj_iff hpool).mp hget
    exact congrArg Fin.val hfin
  · intro x hx
    obtain ⟨i, hi, rfl⟩ := List.mem_map.mp hx
    exact getD_mem_of_lt pool i 0 (hlt i hi)

lemma shuffle_draw_spec {perm pool : List ℤ} (hpool : pool.Nodup)
    (hp : perm.Perm pool) {size : ℕ} (r : ℕ) (hsz : size ≤ pool.length) :
    (shuffle_draw perm r size).length = size ∧
      (shuffle_draw perm r size).Nodup ∧ ∀ x ∈ shuffle_draw perm r size, x ∈ pool := by
  have hlen : perm.length = pool.length := hp.length_eq
  have hstart : r % (perm.length - size + 1) < perm.length - size + 1 :=
    Nat.mod_lt r (by omega)
  have hsub : List.Sublist (shuffle_draw perm r size) perm := by
    unfold shuffle_draw
    exact (List.take_sublist _ _).trans (List.drop_sublist _ _)
  refine ⟨?_, hsub.nodup (hp.nodup_iff.mpr hpool), ?_⟩
  · unfold shuffle_draw
    rw [List.length_take, List.length_drop]
    omega
  · intro x hx
    exact hp.subset (hsub.subset hx)

/-- C1: the claim states that `Lottery.drawer` raises `ValueError` iff
`¬(0 < size ≤ maxNumber)`.  The code instead validates the swapped
predicate `0 < maxNumber ≤ size`: the call `drawer(max_num=10, size=11)`
(claimed invalid) passes validation, while the ordinary valid call
`drawer(max_num=90, size=6)` is rejected.  `drawer(10, 10)` and the
rejection of `drawer(max_num=10, size=0)` agree with the claim only by
symmetry of the swap. -/
theorem c1_validation_swapped :
    drawer_validation 10 11 = true ∧ drawer_validation 10 0 = false ∧
    drawer_validation 10 10 = true ∧ drawer_validation 90 6 = false := by
  decide

/-- C2: every backend variant of `Lottery` (`randrange`, `randint`,
`choice`, `sample`, `shuffle`), on a valid pair `0 < size ≤ max_num` with
no fixed numbers, returns (whenever it returns) exactly `size` pairwise
distinct values in `[1, max_num]`, and the full set `{1, ..., max_num}`
when `size = max_num`. -/
theorem c2_backends_contract (max_num size : ℕ) (h1 : 0 < size)
    (h2 : size ≤ max_num) (o : ℕ → ℕ) (fuel : ℕ) (idxs : List ℕ)
    (perm : List ℤ) (r : ℕ) :
    (∀ s, randrange_draw o ∅ max_num size fuel = some s → drawOk max_num size s) ∧
    (∀ s, randint_draw o ∅ max_num size fuel = some s → drawOk max_num size s) ∧
    (∀ l, choice_draw o (izRange max_num) size = some l → listDrawOk max_num size l) ∧
    (idxs.Nodup → idxs.length = size → (∀ i ∈ idxs, i < max_num) →
      listDrawOk max_num size (sample_draw idxs (izRange max_num))) ∧
    (perm.Perm (izRange max_num) → listDrawOk max_num size (shuffle_draw perm r size)) := by
  have hm : 0 < max_num := lt_of_lt_of_le h1 h2
  refine ⟨?_, ?_, ?_, ?_, ?_⟩
  · intro s hs
    unfold randrange_draw at hs
    obtain ⟨hc, hmem⟩ :=
      randrange_loop_spec o ∅ max_num size hm fuel 0 ∅ (by simp) s hs
    refine drawOk_of (by simpa using hc) ?_
    intro x hx
    rcases hmem x hx with h | h
    · simp at h
    · exact h
  · intro s hs
    unfold randint_draw at hs
    obtain ⟨hc, hmem⟩ :=
      randint_loop_spec o ∅ max_num size hm fuel 0 ∅ (by simp) (by simp) s hs
    refine drawOk_of (by simpa using hc) ?_
    intro x hx
    rcases hmem x hx with h | h
    · simp at h
    · exact h
  · intro l hl
    obtain ⟨hlen, hnd, hmem⟩ :=
      choice_loop_spec o size 0 (izRange max_num) (izRange_nodup _) l hl
    exact listDrawOk_of hlen hnd hmem
  · intro hnd hlen hlt
    have hlt' : ∀ i ∈ idxs, i < (izRange max_num).length := by
      intro i hi
      rw [izRange_length]
      exact hlt i hi
    obtain ⟨hl, hnd2, hmem⟩ := sample_draw_spec (izRange_nodup max_num) hnd hlt'
    exact listDrawOk_of (by rw [hl, hlen]) hnd2 hmem
  · intro hperm
    obtain ⟨hl, hnd2, hmem⟩ :=
      shuffle_draw_spec (izRange_nodup max_num) hperm r
        (show size ≤ (izRange max_num).length by rw [izRange_length]; exact h2)
    exact listDrawOk_of hl hnd2 hmem

/-- Witness for `c2_backends_contract` at `max_num = 3`, `size = 2`,
concrete index list `[0, 1]` and the identity permutation. -/
theorem c2_backends_contract_witness :
    listDrawOk 3 2 (sample_draw [0, 1] (izRange 3)) ∧
    listDrawOk 3 2 (shuffle_draw (izRange 3) 1 2) := by
  have h := c2_backends_contract 3 2 (by decide) (by decide)
    (fun k => k) 9 [0, 1] (izRange 3) 1
  exact ⟨h.2.2.2.1 (by decide) (by decide) (by decide),
    h.2.2.2.2 (List.Perm.refl _)⟩

/-- Outcome of `Lottery.drawer`'s reduction step: a winning draw, the
`IndexError` of `rnd.choice([])`, or fuel exhaustion (the `while` loop of
the source can spin forever if every coin flip keeps every element). -/
inductive ReduceResult (α : Type) where
  | ok : α → ReduceResult α
  | indexError : ReduceResult α
  | fuelOut : ReduceResult α
deriving DecidableEq

/-- `itertools.compress(draws, selections(length))`: keep the elements
whose coin flip (one independent flip per element, in order) is 1. -/
def compress_go {α : Type} (sel : ℕ → Bool) : ℕ → List α → List α
  | _, [] => []
  | i, a :: t =>
    if sel i then a :: compress_go sel (i + 1) t else compress_go sel (i + 1) t

/-- `compress` applied from the first element. -/
def compressList {α : Type} (sel : ℕ → Bool) (l : List α) : List α :=
  compress_go sel 0 l

/-- `rnd.choice(draws)`: `IndexError` on the empty list, otherwise the
element at a uniformly chosen index (embedded as `r % length`). -/
def rnd_choice_list {α : Type} (l : List α) (r : ℕ) : ReduceResult α :=
  match l with
  | [] => ReduceResult.indexError
  | a :: _ => ReduceResult.ok (l.getD (r % l.length) a)

/-- The `while (length := len(draws)) >= 10: draws = list(compress(...))`
loop of `Lottery.drawer`, followed by `rnd.choice(draws)` when fewer than
ten draws remain.  `flips round i` is the coin for element `i` of round
`round`; `pickR` drives the final uniform pick. -/
def reduce_loop {α : Type} (flips : ℕ → ℕ → Bool) (pickR : ℕ) :
    ℕ → ℕ → List α → ReduceResult α
  | 0, _, _ => ReduceResult.fuelOut
  | fuel + 1, round, draws =>
    if 10 ≤ draws.length then
      reduce_loop flips pickR fuel (round + 1) (compressList (flips round) draws)
    else rnd_choice_list draws pickR

/-- The batch of trial results collected by `Lottery.drawer`: one backend
invocation per iteration of `range(self._iters)` (completion order is
irrelevant here; the reduction treats the batch as unordered and we prove
only order-independent facts). -/
def drawer_trials {α : Type} (iters : ℕ) (trial : ℕ → α) : List α :=
  (List.range iters).map trial

/-- `rnd.randint(1, m)` on integers, for `m ≥ 1` (the only way the source
calls it): embedded as `1 + r % m`. -/
def randint_one (m : ℤ) (r : ℕ) : ℤ :=
  1 + (r : ℤ) % m

/-- `Lottery.__call__`'s trial count:
`self._iters = many or rnd.randint(1, self.CONFIG.max_draw_iters or self._iters)`.
A truthy (non-zero, non-`None`) `many` is used directly; otherwise the
count is drawn from `[1, max_draw_iters or prev_iters]`. -/
def compute_iters (many : Option ℤ) (maxDrawIters prevIters : ℤ) (r : ℕ) : ℤ :=
  match many with
  | some m =>
    if m ≠ 0 then m
    else randint_one (if maxDrawIters ≠ 0 then maxDrawIters else prevIters) r
  | none => randint_one (if maxDrawIters ≠ 0 then maxDrawIters else prevIters) r

/-- The spec's words for step 1 of the Trial Reducer, for comparison:
"`N`, drawn uniformly from `[1, ceiling]` where `ceiling` is
caller-supplied" — under the same embedding of a uniform draw from
`[1, m]` used everywhere else in this file. -/
def spec_uniform_iters (ceiling : ℤ) (r : ℕ) : ℤ :=
  randint_one ceiling r

lemma compress_go_subset {α : Type} (sel : ℕ → Bool) :
    ∀ (i : ℕ) (l : List α) (x : α), x ∈ compress_go sel i l → x ∈ l := by
  intro i l
  induction l generalizing i with
  | nil => intro x hx; simp [compress_go] at hx
  | cons a t ih =>
    intro x hx
    simp only [compress_go] at hx
    by_cases hs : sel i
    · rw [if_pos hs] at hx
      rcases List.mem_cons.mp hx with h | h
      · rw [h]; exact List.mem_cons_self a t
      · exact List.mem_cons_of_mem a (ih (i + 1) x h)
    · rw [if_neg hs] at hx
      exact List.mem_cons_of_mem a (ih (i + 1) x hx)

lemma rnd_choice_list_mem {α : Type} {l : List α} {r : ℕ} {x : α}
    (h : rnd_choice_list l r = ReduceResult.ok x) : x ∈ l := by
  match l with
  | [] => simp [rnd_choice_list] at h
  | a :: t =>
    simp only [rnd_choice_list, ReduceResult.ok.injEq] at h
    rw [← h]
    exact getD_mem_of_lt (a :: t) _ a (Nat.mod_lt r (by simp))

lemma reduce_loop_mem {α : Type} (flips : ℕ → ℕ → Bool) (pickR : ℕ) :
    ∀ (fuel round : ℕ) (draws : List α) (x : α),
      reduce_loop flips pickR fuel round draws = ReduceResult.ok x → x ∈ draws := by
  intro fuel
  induction fuel with
  | zero => intro round draws x hx; simp [reduce_loop] at hx
  | succ n ih =>
    intro round draws x hx
    simp only [reduce_loop] at hx
    by_cases hlen : 10 ≤ draws.length
    · rw [if_pos hlen] at hx
      exact compress_go_subset (flips round) 0 draws x (ih (round + 1) _ x hx)
    · rw [if_neg hlen] at hx
      exact rnd_choice_list_mem hx

/-- C4: with trial ceiling 1, `many or ...` sets `_iters = 1`, exactly one
trial runs, and the reduction is the identity on the one-element batch: no
filtering round runs (1 < 10) and the final pick returns the single trial
result unchanged, for every coin-flip and pick oracle. -/
theorem c4_single_trial_identity {α : Type} (flips : ℕ → ℕ → Bool)
    (pickR fuel : ℕ) (trial : ℕ → α) (maxDrawIters prevIters : ℤ) (r : ℕ)
    (hf : 0 < fuel) :
    compute_iters (some 1) maxDrawIters prevIters r = 1 ∧
    drawer_trials 1 trial = [trial 0] ∧
    reduce_loop flips pickR fuel 0 (drawer_trials 1 trial) =
      ReduceResult.ok (trial 0) := by
  have htr : drawer_trials 1 trial = [trial 0] := by
    have : List.range 1 = [0] := rfl
    simp [drawer_trials, this]
  refine ⟨by simp [compute_iters], htr, ?_⟩
  obtain ⟨n, rfl⟩ := Nat.exists_eq_succ_of_ne_zero (Nat.pos_iff_ne_zero.mp hf)
  rw [htr]
  simp [reduce_loop, rnd_choice_list, Nat.mod_one]

/-- Witness for `c4_single_trial_identity`. -/
theorem c4_single_trial_identity_witness :
    compute_iters (some 1) 100000 1 7 = 1 ∧
    drawer_trials 1 (fun k => k) = [0] ∧
    reduce_loop (fun _ _ => true) 3 5 0 (drawer_trials 1 (fun k => k)) =
      ReduceResult.ok 0 :=
  c4_single_trial_identity (fun _ _ => true) 3 5 (fun k => k) 100000 1 7
    (by decide)

/-- C10: the final `rnd.choice(draws)` is only defined on a non-empty
batch.  First conjunct: with ten trials and coin flips that eliminate
every element in the first filtering round, the surviving batch is empty
and the final pick is an `IndexError`.  Second conjunct: whenever the
reducer returns normally, its output is one of the trial results — a
surviving element of the batch. -/
theorem c10_empty_batch_index_error :
    (reduce_loop (fun _ _ => false) 0 3 0 (izRange 10) =
      ReduceResult.indexError) ∧
    (∀ (flips : ℕ → ℕ → Bool) (pickR fuel round : ℕ) (draws : List ℤ) (x : ℤ),
      reduce_loop flips pickR fuel round draws = ReduceResult.ok x →
        x ∈ draws) := by
  constructor
  · decide
  · intro flips pickR fuel round draws x hx
    exact reduce_loop_mem flips pickR fuel round draws x hx

/-- Witness for `c10_empty_batch_index_error`: a concrete normal return,
whose output is a member of the batch. -/
theorem c10_empty_batch_index_error_witness : (1 : ℤ) ∈ izRange 3 :=
  c10_empty_batch_index_error.2 (fun _ _ => false) 0 1 0 (izRange 3) 1
    (by decide)

/-- C5 counterexample: the claim says the trial count is *drawn uniformly
from `[1, ceiling]`* when the caller supplies `many = 5`.  Under the
file's embedding of a uniform draw from `[1, m]` (`randint_one`), oracle
value 1 would then yield `N = 2`; the code instead uses the supplied value
directly and yields `N = 5` — `many` is an exact count, not a ceiling. -/
theorem c5_iters_not_uniform :
    compute_iters (some 5) 100000 1 1 = 5 ∧
    spec_uniform_iters 5 1 = 2 ∧ (5 : ℤ) ≠ 2 := by
  refine ⟨by simp [compute_iters], by simp [spec_uniform_iters, randint_one], by decide⟩

/-- C5 amended: a truthy (non-zero) caller-supplied `many` is used
directly as the trial count; only when `many` is absent (or zero) is the
count drawn uniformly from `[1, max_draw_iters]`, whose configured default
is 100000, and then `1 ≤ N ≤ max_draw_iters` holds. -/
theorem c5_iters_amended (m maxDrawIters prevIters : ℤ) (r : ℕ)
    (hm : m ≠ 0) (hM : 0 < maxDrawIters) :
    compute_iters (some m) maxDrawIters prevIters r = m ∧
    1 ≤ compute_iters none maxDrawIters prevIters r ∧
    compute_iters none maxDrawIters prevIters r ≤ maxDrawIters := by
  refine ⟨by simp [compute_iters, hm], ?_, ?_⟩ <;>
  · simp only [compute_iters, randint_one, if_pos (by omega : maxDrawIters ≠ 0)]
    have h1 : 0 ≤ (r : ℤ) % maxDrawIters := Int.emod_nonneg _ (by omega)
    have h2 : (r : ℤ) % maxDrawIters < maxDrawIters :=
      Int.emod_lt_of_pos _ hM
    omega

/-- Witness for `c5_iters_amended` at `many = 5`, `max_draw_iters = 100000`. -/
theorem c5_iters_amended_witness :
    compute_iters (some 5) 100000 1 3 = 5 ∧
    1 ≤ compute_iters none 100000 1 3 ∧
    compute_iters none 100000 1 3 ≤ 100000 :=
  c5_iters_amended 5 100000 1 3 (by decide) (by decide)

/-- The closed set of backend variants of `Lottery.BACKENDS`. -/
inductive BackendId where
  | bchoice | brandint | brandrange | bsample | bshuffle
deriving DecidableEq

/-- `Lottery.BACKENDS`, in the source's tuple order. -/
def BACKENDS : List BackendId :=
  [BackendId.bchoice, BackendId.brandint, BackendId.brandrange,
   BackendId.bsample, BackendId.bshuffle]

/-- The `backend` property setter of `Lottery`: a recognized name selects
that method; any other name selects `rnd.choice(self.BACKENDS)` — a
uniformly random valid variant (`r % 5` embeds the uniform index). -/
def resolve_backend (name : String) (r : ℕ) : BackendId :=
  if name = "choice" then BackendId.bchoice
  else if name = "randint" then BackendId.brandint
  else if name = "randrange" then BackendId.brandrange
  else if name = "sample" then BackendId.bsample
  else if name = "shuffle" then BackendId.bshuffle
  else BACKENDS.getD (r % BACKENDS.length) BackendId.bchoice

/-- The `Lottery.backend` match-based setter: each of the five recognized
names maps to its own variant, the result is always a member of the closed
variant set, and for an unrecognized name every variant is reachable (the
fallback is a uniform choice over `BACKENDS`, never an error and never an
execution of the input).  This covers only `lottery.py`; the
getattr-based `Drawer.backend` of `drawers.py` is modelled separately
below by `drawer_resolve`. -/
theorem c6_backend_resolution (name : String) (r : ℕ) :
    resolve_backend name r ∈ BACKENDS ∧
    resolve_backend "choice" r = BackendId.bchoice ∧
    resolve_backend "randint" r = BackendId.brandint ∧
    resolve_backend "randrange" r = BackendId.brandrange ∧
    resolve_backend "sample" r = BackendId.bsample ∧
    resolve_backend "shuffle" r = BackendId.bshuffle ∧
    (name ∉ ["choice", "randint", "randrange", "sample", "shuffle"] →
      ∀ b ∈ BACKENDS, ∃ r2, resolve_backend name r2 = b) := by
  refine ⟨?_, rfl, rfl, rfl, rfl, rfl, ?_⟩
  · unfold resolve_backend
    split
    · simp [BACKENDS]
    · split
      · simp [BACKENDS]
      · split
        · simp [BACKENDS]
        · split
          · simp [BACKENDS]
          · split
            · simp [BACKENDS]
            · exact getD_mem_of_lt BACKENDS _ _ (Nat.mod_lt r (by simp [BACKENDS]))
  · intro hname b hb
    simp only [List.mem_cons, List.not_mem_nil, or_false] at hname
    push_neg at hname
    obtain ⟨h1, h2, h3, h4, h5⟩ := hname
    have hres : ∀ r2, resolve_backend name r2 =
        BACKENDS.getD (r2 % BACKENDS.length) BackendId.bchoice := by
      intro r2
      simp [resolve_backend, h1, h2, h3, h4, h5]
    fin_cases hb
    · exact ⟨0, by rw [hres]; rfl⟩
    · exact ⟨1, by rw [hres]; rfl⟩
    · exact ⟨2, by rw [hres]; rfl⟩
    · exact ⟨3, by rw [hres]; rfl⟩
    · exact ⟨4, by rw [hres]; rfl⟩

/-- Concrete instance of `c6_backend_resolution` at the unrecognized name
`"quantum"`: the fallback stays within the valid variants and every
variant is reachable. -/
theorem c6_backend_resolution_witness :
    resolve_backend "quantum" 7 ∈ BACKENDS ∧
    resolve_backend "shuffle" 7 = BackendId.bshuffle ∧
    ∃ r2, resolve_backend "quantum" r2 = BackendId.bsample :=
  ⟨(c6_backend_resolution "quantum" 7).1,
    (c6_backend_resolution "quantum" 7).2.2.2.2.2.1,
    (c6_backend_resolution "quantum" 7).2.2.2.2.2.2 (by decide)
      BackendId.bsample (by decide)⟩

/-- `range(1, m+1)` for a Python int bound `m` (empty when `m ≤ 0`). -/
def iz_range_z (m : ℤ) : List ℤ :=
  izRange m.toNat

/-- The `Lottery` instance state touched by `drawing_session`/`__call__`:
draw parameters, the user numbers, the working pool `_numbers`, the settled
`Extraction` (`result.draw`, `result.extra`) and `_iters`. -/
structure LotteryState where
  max_num : ℤ
  max_ext : ℤ
  draw_sz : ℤ
  xtr_sz : ℤ
  user_nums : Finset ℤ
  numbers : List ℤ
  result_draw : Finset ℤ
  result_extra : Option (Finset ℤ)
  iters : ℤ
deriving DecidableEq

/-- The head of `drawing_session`: when `self.user_nums` is non-empty,
replace `self._numbers` by the pool without the user numbers and decrement
`self.draw_sz` by `len(self.user_nums)` — both are in-place mutations of
the instance, never undone later. -/
def session_prep (st : LotteryState) : LotteryState :=
  if st.user_nums = ∅ then st
  else
    { st with
      numbers := (iz_range_z st.max_num).filter (fun n => decide (n ∉ st.user_nums)),
      draw_sz := st.draw_sz - st.user_nums.card }

/-- `Lottery.drawer` as seen by the session: the (swapped) validation
gate, then the reduced multi-trial outcome, abstracted as a `backend`
oracle on the current pool (`none` = any trial failure). -/
def drawer_model (backend : List ℤ → ℤ → ℤ → Option (Finset ℤ))
    (pool : List ℤ) (max_num size : ℤ) : Option (Finset ℤ) :=
  if drawer_validation max_num size then backend pool max_num size else none

/-- `all((self.xtr_sz, self.max_ext))`: Python truthiness of both ints —
non-zero, including negative values. -/
def extra_requested (st : LotteryState) : Bool :=
  decide (st.xtr_sz ≠ 0) && decide (st.max_ext ≠ 0)

/-- `drawing_session` combined with the body of `__call__`: the primary
draw (pool prepared, `drawer` called with `(max_num, draw_sz)`, user
numbers merged in), the optional secondary draw, the assignment of
`self.result` on success only, and the `finally: self._iters = 0`.
The second component is the yielded `(draw, extra)` pair, `none` when the
session raises. -/
def drawing_session_model (backend : List ℤ → ℤ → ℤ → Option (Finset ℤ))
    (st : LotteryState) :
    LotteryState × Option (Finset ℤ × Option (Finset ℤ)) :=
  let st1 := session_prep st
  match drawer_model backend st1.numbers st1.max_num st1.draw_sz with
  | none => ({ st1 with iters := 0 }, none)
  | some d0 =>
    if extra_requested st1 then
      let st2 := { st1 with user_nums := ∅, numbers := iz_range_z st1.max_num }
      match drawer_model backend st2.numbers st2.max_ext st2.xtr_sz with
      | none => ({ st2 with iters := 0 }, none)
      | some e =>
        ({ st2 with
            iters := 0, result_draw := d0 ∪ st1.user_nums,
            result_extra := some e },
          some (d0 ∪ st1.user_nums, some e))
    else
      ({ st1 with
          iters := 0, result_draw := d0 ∪ st1.user_nums,
          result_extra := st1.result_extra },
        some (d0 ∪ st1.user_nums, st1.result_extra))

lemma session_prep_fields (st : LotteryState) :
    (session_prep st).max_num = st.max_num ∧
    (session_prep st).max_ext = st.max_ext ∧
    (session_prep st).xtr_sz = st.xtr_sz ∧
    (session_prep st).user_nums = st.user_nums ∧
    (session_prep st).result_draw = st.result_draw ∧
    (session_prep st).result_extra = st.result_extra := by
  unfold session_prep
  split <;> exact ⟨rfl, rfl, rfl, rfl, rfl, rfl⟩

lemma extra_requested_prep (st : LotteryState) :
    extra_requested (session_prep st) = extra_requested st := by
  unfold extra_requested
  rw [(session_prep_fields st).2.2.1, (session_prep_fields st).2.1]

/-- A session draw request in the scope of the fixed-numbers claim:
`max_num = 90`, `draw_sz = 6`, `fixedNumbers = {7}`, fresh result. -/
def c3_state : LotteryState :=
  { max_num := 90, max_ext := 90, draw_sz := 6, xtr_sz := 0,
    user_nums := {7}, numbers := iz_range_z 90,
    result_draw := ∅, result_extra := none, iters := 1 }

/-- C3 (failing input): with fixed numbers `{7}` and the perfectly valid
request `size = 6`, `maxNumber = 90`, the session decrements the requested
size to 5 and calls `drawer(90, 5)`, whose swapped validation
(`0 < 90 ≤ 5`) rejects it — the session raises instead of returning a
6-element set containing 7, even with a backend that always succeeds.
The fixed-number plumbing itself (pool exclusion, reduced request, union)
is the one described by the claim, but no in-scope invocation can get past
the validator. -/
theorem c3_fixed_numbers_session_fails :
    (drawing_session_model (fun _ _ _ => some ∅) c3_state).2 = none ∧
    (session_prep c3_state).draw_sz = 5 ∧
    drawer_validation 90 5 = false := by
  refine ⟨?_, by decide, by decide⟩
  decide

/-- The state of a reused session object with fixed numbers `{1, 2}` and
configured draw size 6 (extra draw disabled). -/
def c9_state : LotteryState :=
  { max_num := 90, max_ext := 90, draw_sz := 6, xtr_sz := 0,
    user_nums := {1, 2}, numbers := iz_range_z 90,
    result_draw := ∅, result_extra := none, iters := 1 }

/-- C9 (failing input): `drawing_session` decrements `self.draw_sz` in
place and never restores it, so the mutation accumulates across calls on
the same object: after the first call the configured size 6 has become 4,
and the second call runs with 4 and leaves 2 — the second call does not
run with the same draw parameters as the first. -/
theorem c9_draw_sz_accumulates :
    (drawing_session_model (fun _ _ _ => some ∅) c9_state).1.draw_sz = 4 ∧
    (drawing_session_model (fun _ _ _ => some ∅)
      ((drawing_session_model (fun _ _ _ => some ∅) c9_state).1)).1.draw_sz = 2 ∧
    c9_state.draw_sz = 6 := by
  refine ⟨by decide, by decide, by decide⟩

/-- A session state whose extra draw is disabled (`xtr_sz = 0`) with the
primary validation satisfiable (`max_num = draw_sz = 5`). -/
def c7_wit_state : LotteryState :=
  { max_num := 5, max_ext := 90, draw_sz := 5, xtr_sz := 0,
    user_nums := ∅, numbers := iz_range_z 5,
    result_draw := ∅, result_extra := none, iters := 1 }

/-- A session state with a *negative* `xtr_sz`: Python truthiness makes
`all((self.xtr_sz, self.max_ext))` true, so the secondary draw runs. -/
def c7_cex_state : LotteryState :=
  { max_num := 5, max_ext := 90, draw_sz := 5, xtr_sz := -1,
    user_nums := ∅, numbers := iz_range_z 5,
    result_draw := ∅, result_extra := none, iters := 1 }

/-- C7 counterexample: the claim says the secondary draw is invoked *only
when both `extraSize > 0` and `extraMaxNumber > 0`*.  With
`extraSize = -1` and `extraMaxNumber = 90` the gate
`all((xtr_sz, max_ext))` is nevertheless taken (both are non-zero), and
the session — which succeeds for `extraSize = 0` — now fails inside the
attempted secondary draw. -/
theorem c7_negative_extra_triggers :
    extra_requested c7_cex_state = true ∧
    ¬(0 < c7_cex_state.xtr_sz ∧ 0 < c7_cex_state.max_ext) ∧
    (drawing_session_model (fun _ _ _ => some ∅) c7_cex_state).2 = none ∧
    (drawing_session_model (fun _ _ _ => some ∅) c7_wit_state).2 =
      some (∅ ∪ ∅, none) := by
  refine ⟨by decide, by decide, by decide, by decide⟩

/-- C7 amended: whenever `extraSize = 0` or `extraMaxNumber = 0` — both
falsy — the secondary draw is skipped and a successful session yields
`extra = null` (given the session's prior extra is `null`, as on a fresh
object); the gate for the secondary draw is that both parameters are
non-zero (Python truthiness), not that both are positive. -/
theorem c7_extra_null_when_disabled
    (backend : List ℤ → ℤ → ℤ → Option (Finset ℤ)) (st : LotteryState)
    (h1 : st.xtr_sz = 0 ∨ st.max_ext = 0) (h2 : st.result_extra = none) :
    extra_requested st = false ∧
    ∀ d e, (drawing_session_model backend st).2 = some (d, e) → e = none := by
  have hreq : extra_requested st = false := by
    unfold extra_requested
    rcases h1 with h | h <;> simp [h]
  refine ⟨hreq, ?_⟩
  intro d e hde
  simp only [drawing_session_model] at hde
  cases hd : drawer_model backend (session_prep st).numbers
      (session_prep st).max_num (session_prep st).draw_sz with
  | none => rw [hd] at hde; cases hde
  | some d0 =>
    rw [hd] at hde
    dsimp only at hde
    rw [if_neg (by rw [extra_requested_prep, hreq]; simp)] at hde
    dsimp only at hde
    have hpair := Option.some.inj hde
    have h4 : (session_prep st).result_extra = e := congrArg Prod.snd hpair
    rw [← h4, (session_prep_fields st).2.2.2.2.2, h2]

/-- Witness for `c7_extra_null_when_disabled` on `c7_wit_state` with an
always-succeeding backend: the gate is closed and the successful session
yields a null extra. -/
theorem c7_extra_null_when_disabled_witness :
    extra_requested c7_wit_state = false ∧
    (none : Option (Finset ℤ)) = none := by
  have h := c7_extra_null_when_disabled (fun _ _ _ => some ∅) c7_wit_state
    (Or.inl rfl) rfl
  exact ⟨h.1, h.2 (∅ ∪ ∅) none (by decide)⟩

/-- C8: whenever a session call fails (the yield never happens and the
error is re-raised to the caller), the previously settled `Extraction` is
untouched: both `result.draw` and `result.extra` of the post-call state
equal their pre-call values — no partial or aborted extraction is ever
exposed. -/
theorem c8_failure_preserves_result
    (backend : List ℤ → ℤ → ℤ → Option (Finset ℤ)) (st : LotteryState)
    (h : (drawing_session_model backend st).2 = none) :
    (drawing_session_model backend st).1.result_draw = st.result_draw ∧
    (drawing_session_model backend st).1.result_extra = st.result_extra := by
  obtain ⟨-, -, -, -, hrd, hre⟩ := session_prep_fields st
  simp only [drawing_session_model] at h ⊢
  cases hd : drawer_model backend (session_prep st).numbers
      (session_prep st).max_num (session_prep st).draw_sz with
  | none => exact ⟨hrd, hre⟩
  | some d0 =>
    rw [hd] at h
    dsimp only at h ⊢
    by_cases hx : extra_requested (session_prep st) = true
    · rw [if_pos hx] at h ⊢
      cases he : drawer_model backend
          (iz_range_z (session_prep st).max_num) (session_prep st).max_ext
          (session_prep st).xtr_sz with
      | none => exact ⟨hrd, hre⟩
      | some e =>
        rw [he] at h
        dsimp only at h
        exact Option.noConfusion h
    · rw [if_neg hx] at h
      dsimp only at h
      exact Option.noConfusion h

/-- A session state holding a previously settled extraction, whose next
call fails validation (the default request 6-of-90). -/
def c8_wit_state : LotteryState :=
  { max_num := 90, max_ext := 90, draw_sz := 6, xtr_sz := 1,
    user_nums := ∅, numbers := iz_range_z 90,
    result_draw := {4, 8}, result_extra := some {2}, iters := 1 }

/-- Witness for `c8_failure_preserves_result`: the default request
(90, 6) fails the swapped validation, and the prior result is intact. -/
theorem c8_failure_preserves_result_witness :
    (drawing_session_model (fun _ _ _ => some ∅) c8_wit_state).1.result_draw =
      c8_wit_state.result_draw ∧
    (drawing_session_model (fun _ _ _ => some ∅) c8_wit_state).1.result_extra =
      c8_wit_state.result_extra :=
  c8_failure_preserves_result (fun _ _ _ => some ∅) c8_wit_state (by decide)

/-- What `getattr(self, name, ...)` can yield on a `Drawer`
(`drawers.py`): one of the five draw-method variants, or some other
attribute of the object (the pool, a slot, a helper method, ...), which
is not a valid backend. -/
inductive DrawerAttr where
  | variant : BackendId → DrawerAttr
  | otherAttr : String → DrawerAttr
deriving DecidableEq

/-- Whether a resolved `Drawer` attribute is one of the valid variants. -/
def DrawerAttr.isVariant : DrawerAttr → Bool
  | DrawerAttr.variant _ => true
  | DrawerAttr.otherAttr _ => false

/-- The attribute names a `Drawer` object exposes besides the five draw
methods, as declared in `drawers.py`: the `__slots__` entries, the class
members and the dunders declared there.  Attribute names inherited from
`object` are further non-variant attributes of exactly the same kind;
they behave like additional entries of this list. -/
def drawer_attr_names : List String :=
  ["backend_type", "user_nums", "numbers", "_backend", "BACKENDS",
   "backend", "random_backend", "__init__", "__call__", "__slots__"]

/-- The `Drawer.backend` setter of `drawers.py`:
`getattr(self, name, self.random_backend())`.  A name naming *any*
attribute — one of the five draw methods, but equally the pool
`numbers`, a slot, or a helper method — resolves to that attribute;
only a name that is no attribute at all falls back to the uniformly
random valid variant produced by `random_backend`. -/
def drawer_resolve (name : String) (r : ℕ) : DrawerAttr :=
  if name = "choice" then DrawerAttr.variant BackendId.bchoice
  else if name = "randint" then DrawerAttr.variant BackendId.brandint
  else if name = "randrange" then DrawerAttr.variant BackendId.brandrange
  else if name = "sample" then DrawerAttr.variant BackendId.bsample
  else if name = "shuffle" then DrawerAttr.variant BackendId.bshuffle
  else if name ∈ drawer_attr_names then DrawerAttr.otherAttr name
  else DrawerAttr.variant (BACKENDS.getD (r % BACKENDS.length) BackendId.bchoice)

/-- C6 counterexample: in the claim's cited `Drawer.backend`
(`drawers.py`), the unrecognized name `"numbers"` is *not* resolved to a
uniformly chosen valid variant: `getattr` finds the drawer's pool
attribute of that name and returns it, independently of the random
oracle, and the result is not a member of the closed variant set. -/
theorem c6_unrecognized_name_hits_attribute :
    drawer_resolve "numbers" 0 = DrawerAttr.otherAttr "numbers" ∧
    drawer_resolve "numbers" 1 = DrawerAttr.otherAttr "numbers" ∧
    DrawerAttr.isVariant (drawer_resolve "numbers" 0) = false ∧
    "numbers" ∉ ["choice", "randint", "randrange", "sample", "shuffle"] := by
  decide

/-- C6 amended: backend resolution never raises in either implementation.
`Lottery.backend` (match-based) sends each recognized name to its variant
and every other name to a uniformly random valid variant, with every
variant reachable.  `Drawer.backend` (getattr-based) sends each
recognized name to its variant, and an unrecognized name that names no
attribute of the object to a uniformly random valid variant with every
variant reachable — but an unrecognized name colliding with any other
attribute of the drawer resolves to that attribute, not to a valid
variant. -/
theorem c6_resolution_amended (name : String) (r : ℕ) :
    resolve_backend name r ∈ BACKENDS ∧
    (name ∉ ["choice", "randint", "randrange", "sample", "shuffle"] →
      ∀ b ∈ BACKENDS, ∃ r2, resolve_backend name r2 = b) ∧
    drawer_resolve "choice" r = DrawerAttr.variant BackendId.bchoice ∧
    drawer_resolve "randint" r = DrawerAttr.variant BackendId.brandint ∧
    drawer_resolve "randrange" r = DrawerAttr.variant BackendId.brandrange ∧
    drawer_resolve "sample" r = DrawerAttr.variant BackendId.bsample ∧
    drawer_resolve "shuffle" r = DrawerAttr.variant BackendId.bshuffle ∧
    (name ∈ drawer_attr_names → drawer_resolve name r = DrawerAttr.otherAttr name) ∧
    (name ∉ ["choice", "randint", "randrange", "sample", "shuffle"] →
      name ∉ drawer_attr_names →
      ∀ b ∈ BACKENDS, ∃ r2, drawer_resolve name r2 = DrawerAttr.variant b) := by
  have hL := c6_backend_resolution name r
  refine ⟨hL.1, hL.2.2.2.2.2.2, rfl, rfl, rfl, rfl, rfl, ?_, ?_⟩
  · intro h
    fin_cases h <;> rfl
  · intro h5 hattr b hb
    simp only [List.mem_cons, List.not_mem_nil, or_false] at h5
    push_neg at h5
    obtain ⟨n1, n2, n3, n4, n5⟩ := h5
    have hres : ∀ r2, drawer_resolve name r2 =
        DrawerAttr.variant (BACKENDS.getD (r2 % BACKENDS.length) BackendId.bchoice) := by
      intro r2
      simp [drawer_resolve, n1, n2, n3, n4, n5, hattr]
    fin_cases hb
    · exact ⟨0, by rw [hres]; rfl⟩
    · exact ⟨1, by rw [hres]; rfl⟩
    · exact ⟨2, by rw [hres]; rfl⟩
    · exact ⟨3, by rw [hres]; rfl⟩
    · exact ⟨4, by rw [hres]; rfl⟩

/-- Witness for `c6_resolution_amended`: the non-attribute name
`"quantum"` falls back to the valid variants (all reachable) in the
getattr-based drawer, the match-based resolution stays within the valid
variants, and the colliding name `"numbers"` resolves to the drawer's
pool attribute. -/
theorem c6_resolution_amended_witness :
    resolve_backend "quantum" 7 ∈ BACKENDS ∧
    drawer_resolve "numbers" 7 = DrawerAttr.otherAttr "numbers" ∧
    ∃ r2, drawer_resolve "quantum" r2 = DrawerAttr.variant BackendId.bsample := by
  have h := c6_resolution_amended "quantum" 7
  have h2 := c6_resolution_amended "numbers" 7
  exact ⟨h.1, h2.2.2.2.2.2.2.2.1 (by decide),
    h.2.2.2.2.2.2.2.2 (by decide) (by decide) BackendId.bsample (by decide)⟩
